import Mathlib

/-!
Shallow embedding of the percentile interpolation engine of the twin
growth calculator (`src/script.js`, with the near-identical variant in
`src/unnamed/part_000`).

JavaScript numbers that may be NaN are modelled as `Option ℚ` (`none` is
NaN); the engine's NaN results are likewise `none`.  Gestational ages and
table keys, which the loader guarantees numeric, are plain `ℚ`.  The two
global reference tables (`twinEfwCurves`, `twinAcTable`) become explicit
arguments; `EngineState` packages them for the frame/purity claims.
-/

namespace Twin

/-- A JavaScript numeric value that may be NaN (`none` is NaN). -/
abbrev JsNum := Option ℚ

/-- A percentile/value pair, the `{ p, v }` objects assembled in
`calculateEFWPercentile` (src/script.js:330-335); also used for the
(percentile, value) columns of the AC table row. -/
structure Pair where
  p : ℚ
  v : ℚ
deriving DecidableEq

instance : DecidableRel fun a b : Pair => a.v ≤ b.v :=
  fun a b => inferInstanceAs (Decidable (a.v ≤ b.v))

instance : IsTotal Pair fun a b : Pair => a.v ≤ b.v :=
  ⟨fun a b => le_total a.v b.v⟩

instance : IsTrans Pair fun a b : Pair => a.v ≤ b.v :=
  ⟨fun _ _ _ => le_trans⟩

/-- Linear interpolation between pairs `a` and `b` at measurement `m`:
`a.p + frac * (b.p - a.p)` with `frac = (m - a.v) / (b.v - a.v)`
(src/script.js:349-350). -/
def interp (a b : Pair) (m : ℚ) : ℚ :=
  a.p + (m - a.v) / (b.v - a.v) * (b.p - a.p)

/-- The scan `for (let i = 0; i < pairs.length - 1; i++)` shared by
`calculateEFWPercentile` (src/script.js:344-352) and
`calculateACPercentile` (src/script.js:370-378): exact match on the left
pair's value returns its percentile, a bracketing adjacent pair linearly
interpolates, otherwise advance; falling off the end is NaN (`none`). -/
def interpLoop (m : ℚ) : List Pair → Option ℚ
  | a :: b :: t =>
      if m = a.v then some a.p
      else if a.v < m ∧ m < b.v then some (interp a b m)
      else interpLoop m (b :: t)
  | _ => none

/-- Boundary clamp followed by the interpolation scan
(src/script.js:341-352 and 367-377): at or below the first listed value
return its percentile, at or above the last listed value return its
percentile, otherwise scan.  An empty pair list falls through every
check and is NaN (`none`), as in the source where `values[0]` is
`undefined`. -/
def clampInterp (m : ℚ) : List Pair → Option ℚ
  | [] => none
  | a :: t =>
      if m ≤ a.v then some a.p
      else if (t.getLastD a).v ≤ m then some (t.getLastD a).p
      else interpLoop m (a :: t)

/-- The parsed EFW reference table `twinEfwCurves`: per-row gestational
ages in `weeks`, per-column percentile labels in `percentiles`, and for
each column the measurement values aligned with `weeks`.  Labels or cells
that failed to parse are NaN (`none`). -/
structure EfwCurves where
  weeks : List ℚ
  percentiles : List JsNum
  data : List (List JsNum)

/-- The scan loop of `findNearestEfwWeekIndex` (src/script.js:310-316):
walk the remaining weeks at index `i`, keeping the best (strictly
smaller) distance `bd` seen at index `bi`. -/
def nearestAux (ga : ℚ) : List ℚ → Nat → ℚ → Nat → Nat
  | [], _, _, bi => bi
  | w :: ws, i, bd, bi =>
      if |w - ga| < bd then nearestAux ga ws (i + 1) (|w - ga|) i
      else nearestAux ga ws (i + 1) bd bi

/-- The function `findNearestEfwWeekIndex` (src/script.js:303-319).  The
source reads the global `twinEfwCurves`; its `weeks` is passed explicitly
here.  An empty `weeks` list yields `none`, the `-1` of the
`src/unnamed/part_000` variant; in `src/script.js` the same input instead
reaches an empty pair list and NaN, so the two variants agree under the
table invariant `data[i].length == weeks.length`. -/
def findNearestEfwWeekIndex (weeks : List ℚ) (ga : ℚ) : Option Nat :=
  match weeks with
  | [] => none
  | w :: ws => some (nearestAux ga ws 1 (|w - ga|) 0)

/-- The row extraction `twinEfwCurves.data.map(col => col[rowIndex])`
(src/script.js:328); an out-of-range access is `undefined`, i.e. NaN. -/
def efwValuesAt (c : EfwCurves) (idx : Nat) : List JsNum :=
  c.data.map fun col => col.getD idx none

/-- The pair-assembly loop (src/script.js:330-335): walk the percentile
labels and the row values in parallel, keeping pairs whose label and
value are both numeric.  When the values run out first, the remaining
labels pair with `undefined` (NaN) and are all dropped. -/
def buildPairs : List JsNum → List JsNum → List Pair
  | some p :: ps, some v :: vs => ⟨p, v⟩ :: buildPairs ps vs
  | _ :: ps, _ :: vs => buildPairs ps vs
  | _, _ => []

/-- The valid (percentile, value) pairs of the nearest-GA row. -/
def efwRowPairs (c : EfwCurves) (ga : ℚ) : List Pair :=
  match findNearestEfwWeekIndex c.weeks ga with
  | none => []
  | some idx => buildPairs c.percentiles (efwValuesAt c idx)

/-- The sort `pairs.sort((a, b) => a.v - b.v)` (src/script.js:339): a
stable ascending sort by value; `insertionSort` with `a.v ≤ b.v` is
stable, matching the ECMAScript stable `Array.prototype.sort`. -/
def efwSortedPairs (c : EfwCurves) (ga : ℚ) : List Pair :=
  (efwRowPairs c ga).insertionSort fun a b => a.v ≤ b.v

/-- The function `calculateEFWPercentile` (src/script.js:321-355).
Guards in source order: NaN or non-positive measurement, absent row
(`rowIndex === -1`), empty pair list; then clamp and interpolate over the
value-sorted pairs. -/
def calculateEFWPercentile (c : EfwCurves) (ga : ℚ) (efw : JsNum) : Option ℚ :=
  match efw with
  | none => none
  | some e =>
      if e ≤ 0 then none
      else if findNearestEfwWeekIndex c.weeks ga = none then none
      else if efwRowPairs c ga = [] then none
      else clampInterp e (efwSortedPairs c ga)

/-- The parsed AC reference table `twinAcTable`: an association list from
gestational-age key to a row, itself an association list from percentile
key to measurement value.  List order is the JavaScript `Object.keys`
enumeration order; object keys are distinct. -/
structure AcTable where
  rows : List (ℚ × List (ℚ × ℚ))

/-- The scan loop of `findNearestGA` (src/script.js:390-396), tracking
the best key value rather than an index. -/
def nearestKeyAux (ga : ℚ) : List ℚ → ℚ → ℚ → ℚ
  | [], best, _ => best
  | k :: ks, best, bd =>
      if |k - ga| < bd then nearestKeyAux ga ks k (|k - ga|)
      else nearestKeyAux ga ks best bd

/-- The function `findNearestGA` (src/script.js:383-398): `null` (`none`)
on an empty table, otherwise the first key at minimal distance. -/
def findNearestGA (t : AcTable) (ga : ℚ) : Option ℚ :=
  match t.rows.map Prod.fst with
  | [] => none
  | k :: ks => some (nearestKeyAux ga ks k (|k - ga|))

/-- The row fetch `twinAcTable[gaKey]` (src/script.js:363). -/
def tableRow (t : AcTable) (k : ℚ) : List (ℚ × ℚ) :=
  match t.rows.find? fun q => decide (q.1 = k) with
  | some q => q.2
  | none => []

/-- The value fetch `row[p]` (src/script.js:365). -/
def rowLookup (row : List (ℚ × ℚ)) (p : ℚ) : ℚ :=
  match row.find? fun q => decide (q.1 = p) with
  | some q => q.2
  | none => 0

/-- The lines `Object.keys(row).map(parseFloat).sort((a, b) => a - b)`
and `values = percentiles.map(p => row[p])` (src/script.js:364-365), as
(percentile, value) pairs in ascending percentile order.  There is no
defensive re-sort by value here, unlike the weight path. -/
def acSortedPairs (row : List (ℚ × ℚ)) : List Pair :=
  ((row.map Prod.fst).insertionSort fun a b => a ≤ b).map fun p => ⟨p, rowLookup row p⟩

/-- The percentile-sorted pairs of the nearest AC row. -/
def acRowPairs (t : AcTable) (ga : ℚ) : List Pair :=
  match findNearestGA t ga with
  | none => []
  | some k => acSortedPairs (tableRow t k)

/-- The function `calculateACPercentile` (src/script.js:357-381).  The
guard `!ac || isNaN(ac)` rejects NaN and `0` (falsy) but lets negative
measurements through to the clamp. -/
def calculateACPercentile (t : AcTable) (ga : ℚ) (ac : JsNum) : Option ℚ :=
  match ac with
  | none => none
  | some a =>
      if a = 0 then none
      else if findNearestGA t ga = none then none
      else clampInterp a (acRowPairs t ga)

/-- The discordancy computation of `updateResults` (src/script.js:287-290):
guarded by `efwTwin1 > 0 && efwTwin2 > 0` (both variants only store a
twin's EFW under `if (efw > 0)`), value `|a - b| / max(a, b) * 100`,
unrounded; the `toFixed(1)` is presentation-side formatting. -/
def discordancy (efwA efwB : ℚ) : Option ℚ :=
  if 0 < efwA ∧ 0 < efwB then some (|efwA - efwB| / max efwA efwB * 100)
  else none

/-- The engine's ambient globals (`twinEfwCurves`, `twinAcTable`). -/
structure EngineState where
  twinEfwCurves : EfwCurves
  twinAcTable : AcTable

/-- The function `calculateEFWPercentile` as a state transformer over the
globals it reads: its body performs no assignment to `twinEfwCurves` or
`twinAcTable` (the only mutation, `pairs.sort`, acts on the freshly
allocated local `pairs` array; `percentiles.slice()` and `data.map`
copy), so the out-state is the in-state. -/
def runEfwPercentile (s : EngineState) (ga : ℚ) (efw : JsNum) : Option ℚ × EngineState :=
  (calculateEFWPercentile s.twinEfwCurves ga efw, s)

/-- The function `calculateACPercentile` as a state transformer; it only
reads `twinAcTable` (`Object.keys(...)` and the sorted key array are
fresh arrays). -/
def runAcPercentile (s : EngineState) (ga : ℚ) (ac : JsNum) : Option ℚ × EngineState :=
  (calculateACPercentile s.twinAcTable ga ac, s)

/-- The discordancy block as a state transformer; it reads no table. -/
def runDiscordancy (s : EngineState) (a b : ℚ) : Option ℚ × EngineState :=
  (discordancy a b, s)

/-- A weight table with one row at week 20: percentile 50 → 350 g,
percentile 90 → 450 g (the spec's worked example). -/
def efwW : EfwCurves := ⟨[20], [some 50, some 90], [[some 350], [some 450]]⟩

/-- The table `efwW` with its two columns listed in the opposite order. -/
def efwWswap : EfwCurves := ⟨[20], [some 90, some 50], [[some 450], [some 350]]⟩

/-- A weight table whose percentiles decrease as values increase:
percentile 90 at 100 g, percentile 50 at 200 g. -/
def efwDec : EfwCurves := ⟨[20], [some 90, some 50], [[some 100], [some 200]]⟩

/-- An AC table whose single row stores the larger value at the smaller
percentile: percentile 10 → 200, percentile 50 → 100. -/
def acDec : AcTable := ⟨[(20, [(10, 200), (50, 100)])]⟩

/-- A value-monotone AC table: percentile 10 → 100, percentile 50 → 200
at key 20. -/
def acInc : AcTable := ⟨[(20, [(10, 100), (50, 200)])]⟩

example : calculateEFWPercentile efwW 20 (some 400) = some 70 := by
  norm_num [calculateEFWPercentile, efwW, efwRowPairs, efwSortedPairs, efwValuesAt,
    findNearestEfwWeekIndex, nearestAux, buildPairs, clampInterp, interpLoop, interp,
    List.insertionSort, List.orderedInsert] <;> simp

example : calculateEFWPercentile efwW 20 (some 300) = some 50 := by
  norm_num [calculateEFWPercentile, efwW, efwRowPairs, efwSortedPairs, efwValuesAt,
    findNearestEfwWeekIndex, nearestAux, buildPairs, clampInterp, interpLoop, interp,
    List.insertionSort, List.orderedInsert] <;> simp

example : calculateEFWPercentile efwDec 20 (some 150) = some 70 := by
  norm_num [calculateEFWPercentile, efwDec, efwRowPairs, efwSortedPairs, efwValuesAt,
    findNearestEfwWeekIndex, nearestAux, buildPairs, clampInterp, interpLoop, interp,
    List.insertionSort, List.orderedInsert] <;> simp

example : calculateACPercentile acDec 20 (some 250) = some 50 := by
  norm_num [calculateACPercentile, acDec, acRowPairs, acSortedPairs, findNearestGA,
    nearestKeyAux, tableRow, rowLookup, clampInterp, interpLoop, interp,
    List.insertionSort, List.orderedInsert, List.find?] <;> simp

example : calculateACPercentile acInc 20 (some (-5)) = some 10 := by
  norm_num [calculateACPercentile, acInc, acRowPairs, acSortedPairs, findNearestGA,
    nearestKeyAux, tableRow, rowLookup, clampInterp, interpLoop, interp,
    List.insertionSort, List.orderedInsert, List.find?] <;> simp

example : calculateACPercentile acInc 20 (some 120) = some 18 := by
  norm_num [calculateACPercentile, acInc, acRowPairs, acSortedPairs, findNearestGA,
    nearestKeyAux, tableRow, rowLookup, clampInterp, interpLoop, interp,
    List.insertionSort, List.orderedInsert, List.find?] <;> simp

example : discordancy 800 1000 = some 20 := by norm_num [discordancy]

example : findNearestEfwWeekIndex [20, 23] 22 = some 1 := by
  norm_num [findNearestEfwWeekIndex, nearestAux]

/-! Helper lemmas about pairwise-related lists. -/

lemma pairwise_head_rel {R : Pair → Pair → Prop} {a x : Pair} {t : List Pair}
    (hs : (a :: t).Pairwise R) (hx : x ∈ a :: t) : x = a ∨ R a x := by
  rcases List.mem_cons.mp hx with h | h
  · exact Or.inl h
  · exact Or.inr ((List.pairwise_cons.mp hs).1 x h)

lemma pairwise_rel_getLastD {R : Pair → Pair → Prop} {a x : Pair} {t : List Pair}
    (hs : (a :: t).Pairwise R) (hx : x ∈ a :: t) :
    x = t.getLastD a ∨ R x (t.getLastD a) := by
  induction t generalizing a with
  | nil =>
      simp only [List.getLastD_nil]
      simp only [List.mem_singleton] at hx
      exact Or.inl hx
  | cons b t ih =>
      rw [List.getLastD_cons]
      rcases List.mem_cons.mp hx with h | h
      · subst h
        refine Or.inr ?_
        exact (List.pairwise_cons.mp hs).1 _ (List.getLastD_mem_cons t b)
      · exact ih (List.pairwise_cons.mp hs).2 h

/-- The head of a value-sorted pair list is value-minimal. -/
lemma head_le_of_sorted {a x : Pair} {t : List Pair}
    (hs : (a :: t).Pairwise fun p q => p.v ≤ q.v) (hx : x ∈ a :: t) : a.v ≤ x.v := by
  rcases pairwise_head_rel hs hx with h | h
  · rw [h]
  · exact h

/-- The last element of a value-sorted pair list is value-maximal. -/
lemma le_getLastD_of_sorted {a x : Pair} {t : List Pair}
    (hs : (a :: t).Pairwise fun p q => p.v ≤ q.v) (hx : x ∈ a :: t) :
    x.v ≤ (t.getLastD a).v := by
  rcases pairwise_rel_getLastD hs hx with h | h
  · rw [h]
  · exact h

/-- The head of a percentile-sorted pair list bounds the last element's
percentile from below. -/
lemma head_p_le_getLastD {a : Pair} {t : List Pair}
    (hs : (a :: t).Pairwise fun p q => p.p ≤ q.p) : a.p ≤ (t.getLastD a).p := by
  rcases pairwise_rel_getLastD hs (List.mem_cons_self a t) with h | h
  · rw [← h]
  · exact h

/-! Arithmetic facts about linear interpolation between two pairs. -/

lemma interp_lower {a b : Pair} {m : ℚ} (hv1 : a.v < m) (hv2 : m < b.v)
    (hp : a.p ≤ b.p) : a.p ≤ interp a b m := by
  have hfrac : 0 ≤ (m - a.v) / (b.v - a.v) :=
    div_nonneg (by linarith) (by linarith)
  have := mul_nonneg hfrac (by linarith : (0 : ℚ) ≤ b.p - a.p)
  unfold interp
  linarith

lemma interp_upper {a b : Pair} {m : ℚ} (hv1 : a.v < m) (hv2 : m < b.v)
    (hp : a.p ≤ b.p) : interp a b m ≤ b.p := by
  have hden : (0 : ℚ) < b.v - a.v := by linarith
  have hfrac : (m - a.v) / (b.v - a.v) ≤ 1 := by
    rw [div_le_one hden]
    linarith
  have := mul_le_mul_of_nonneg_right hfrac (by linarith : (0 : ℚ) ≤ b.p - a.p)
  unfold interp
  linarith

lemma interp_bounds_min_max {a b : Pair} {m : ℚ} (hv1 : a.v < m) (hv2 : m < b.v) :
    min a.p b.p ≤ interp a b m ∧ interp a b m ≤ max a.p b.p := by
  rcases le_total a.p b.p with hp | hp
  · rw [min_eq_left hp, max_eq_right hp]
    exact ⟨interp_lower hv1 hv2 hp, interp_upper hv1 hv2 hp⟩
  · have hden : (0 : ℚ) < b.v - a.v := by linarith
    have hfrac0 : 0 ≤ (m - a.v) / (b.v - a.v) :=
      div_nonneg (by linarith) (by linarith)
    have hfrac1 : (m - a.v) / (b.v - a.v) ≤ 1 := by
      rw [div_le_one hden]
      linarith
    rw [min_eq_right hp, max_eq_left hp]
    constructor
    · have := mul_le_mul_of_nonneg_right hfrac1 (by linarith : (0 : ℚ) ≤ a.p - b.p)
      unfold interp
      nlinarith
    · have := mul_nonneg hfrac0 (by linarith : (0 : ℚ) ≤ a.p - b.p)
      unfold interp
      nlinarith

lemma interp_mono {a b : Pair} {m m' : ℚ} (hmm : m ≤ m') (hv : a.v < b.v)
    (hp : a.p ≤ b.p) : interp a b m ≤ interp a b m' := by
  have hden : (0 : ℚ) < b.v - a.v := by linarith
  have hfrac : (m - a.v) / (b.v - a.v) ≤ (m' - a.v) / (b.v - a.v) :=
    (div_le_div_iff_of_pos_right hden).mpr (by linarith)
  have := mul_le_mul_of_nonneg_right hfrac (by linarith : (0 : ℚ) ≤ b.p - a.p)
  unfold interp
  linarith

/-! Structural lemmas about the interpolation scan. -/

/-- On a percentile-sorted pair list, every loop result is at least the
head's percentile. -/
lemma interpLoop_head_le {m r : ℚ} {a : Pair} {t : List Pair}
    (hs : (a :: t).Pairwise fun x y => x.p ≤ y.p)
    (hr : interpLoop m (a :: t) = some r) : a.p ≤ r := by
  induction t generalizing a with
  | nil => simp [interpLoop] at hr
  | cons b t ih =>
      obtain ⟨hhead, htail⟩ := List.pairwise_cons.mp hs
      by_cases h1 : m = a.v
      · rw [interpLoop, if_pos h1] at hr
        cases hr
        exact le_refl _
      · by_cases h2 : a.v < m ∧ m < b.v
        · rw [interpLoop, if_neg h1, if_pos h2] at hr
          cases hr
          exact interp_lower h2.1 h2.2 (hhead b (List.mem_cons_self b t))
        · rw [interpLoop, if_neg h1, if_neg h2] at hr
          exact le_trans (hhead b (List.mem_cons_self b t)) (ih htail hr)

/-- On a percentile-sorted pair list, every loop result is at most the
last element's percentile. -/
lemma interpLoop_le_getLastD {m r : ℚ} {a : Pair} {t : List Pair}
    (hs : (a :: t).Pairwise fun x y => x.p ≤ y.p)
    (hr : interpLoop m (a :: t) = some r) : r ≤ (t.getLastD a).p := by
  induction t generalizing a with
  | nil => simp [interpLoop] at hr
  | cons b t ih =>
      obtain ⟨hhead, htail⟩ := List.pairwise_cons.mp hs
      rw [List.getLastD_cons]
      have hblast : b.p ≤ (t.getLastD b).p := head_p_le_getLastD htail
      by_cases h1 : m = a.v
      · rw [interpLoop, if_pos h1] at hr
        cases hr
        exact le_trans (hhead b (List.mem_cons_self b t)) hblast
      · by_cases h2 : a.v < m ∧ m < b.v
        · rw [interpLoop, if_neg h1, if_pos h2] at hr
          cases hr
          exact le_trans (interp_upper h2.1 h2.2 (hhead b (List.mem_cons_self b t))) hblast
        · rw [interpLoop, if_neg h1, if_neg h2] at hr
          exact ih htail hr

/-- On a value-sorted pair list whose last value lies strictly above `m`
while the head's value lies at or below it, the scan always produces a
result: the trailing `return NaN` of the source loop is unreachable. -/
lemma interpLoop_isSome {m : ℚ} {a : Pair} {t : List Pair}
    (hs : (a :: t).Pairwise fun x y => x.v ≤ y.v)
    (h1 : a.v ≤ m) (h2 : m < (t.getLastD a).v) :
    (interpLoop m (a :: t)).isSome := by
  induction t generalizing a with
  | nil =>
      rw [List.getLastD_nil] at h2
      exact absurd h1 (not_le.mpr h2)
  | cons b t ih =>
      obtain ⟨hhead, htail⟩ := List.pairwise_cons.mp hs
      rw [List.getLastD_cons] at h2
      by_cases hm1 : m = a.v
      · rw [interpLoop, if_pos hm1]
        rfl
      · have ha : a.v < m := lt_of_le_of_ne h1 fun h => hm1 h.symm
        by_cases hm2 : m < b.v
        · rw [interpLoop, if_neg hm1, if_pos ⟨ha, hm2⟩]
          rfl
        · rw [interpLoop, if_neg hm1, if_neg fun h => hm2 h.2]
          exact ih htail (not_lt.mp hm2) h2

/-- Any loop result lies between the percentiles of two members of the
list (so inside the closed span of the row's percentiles). -/
lemma interpLoop_bounds {m r : ℚ} {l : List Pair}
    (hr : interpLoop m l = some r) :
    ∃ a ∈ l, ∃ b ∈ l, a.p ≤ r ∧ r ≤ b.p := by
  induction l with
  | nil => simp [interpLoop] at hr
  | cons a t ih =>
      cases t with
      | nil => simp [interpLoop] at hr
      | cons b t' =>
          by_cases h1 : m = a.v
          · rw [interpLoop, if_pos h1] at hr
            cases hr
            exact ⟨a, by simp, a, by simp, le_refl _, le_refl _⟩
          · by_cases h2 : a.v < m ∧ m < b.v
            · rw [interpLoop, if_neg h1, if_pos h2] at hr
              cases hr
              obtain ⟨hlo, hhi⟩ := interp_bounds_min_max h2.1 h2.2
              rcases le_total a.p b.p with hp | hp
              · exact ⟨a, by simp, b, by simp, by rwa [min_eq_left hp] at hlo,
                  by rwa [max_eq_right hp] at hhi⟩
              · exact ⟨b, by simp, a, by simp, by rwa [min_eq_right hp] at hlo,
                  by rwa [max_eq_left hp] at hhi⟩
            · rw [interpLoop, if_neg h1, if_neg h2] at hr
              obtain ⟨x, hx, y, hy, hxr, hry⟩ := ih hr
              exact ⟨x, List.mem_cons_of_mem a hx, y, List.mem_cons_of_mem a hy, hxr, hry⟩

/-- Monotonicity of the scan on a percentile-sorted list, under the loop
invariant that the head's value is at or below the measurement. -/
lemma interpLoop_mono {m m' r r' : ℚ} {a : Pair} {t : List Pair}
    (hs : (a :: t).Pairwise fun x y => x.p ≤ y.p)
    (hmm : m ≤ m') (ha : a.v ≤ m)
    (hr : interpLoop m (a :: t) = some r)
    (hr' : interpLoop m' (a :: t) = some r') : r ≤ r' := by
  induction t generalizing a with
  | nil => simp [interpLoop] at hr
  | cons b t ih =>
      obtain ⟨hhead, htail⟩ := List.pairwise_cons.mp hs
      have hpab : a.p ≤ b.p := hhead b (List.mem_cons_self b t)
      by_cases h1 : m = a.v
      · rw [interpLoop, if_pos h1] at hr
        cases hr
        exact interpLoop_head_le hs hr'
      · have ham : a.v < m := lt_of_le_of_ne ha fun h => h1 h.symm
        have ham' : a.v < m' := lt_of_lt_of_le ham hmm
        have h1' : m' ≠ a.v := ne_of_gt ham'
        by_cases h2 : a.v < m ∧ m < b.v
        · rw [interpLoop, if_neg h1, if_pos h2] at hr
          cases hr
          by_cases h2' : a.v < m' ∧ m' < b.v
          · rw [interpLoop, if_neg h1', if_pos h2'] at hr'
            cases hr'
            exact interp_mono hmm (lt_trans h2.1 h2.2) hpab
          · rw [interpLoop, if_neg h1', if_neg h2'] at hr'
            exact le_trans (interp_upper h2.1 h2.2 hpab) (interpLoop_head_le htail hr')
        · have hbm : b.v ≤ m := not_lt.mp fun h => h2 ⟨ham, h⟩
          have hbm' : b.v ≤ m' := le_trans hbm hmm
          have h2'f : ¬(a.v < m' ∧ m' < b.v) := fun h => absurd h.2 (not_lt.mpr hbm')
          rw [interpLoop, if_neg h1, if_neg h2] at hr
          rw [interpLoop, if_neg h1', if_neg h2'f] at hr'
          exact ih htail hbm hr hr'

/-- On a strictly value-sorted list, the scan at a member's exact value
returns that member's percentile, provided the member is not the last
element (the last is handled by the high clamp before the loop runs). -/
lemma interpLoop_exact {a pr : Pair} {t : List Pair}
    (hs : (a :: t).Pairwise fun x y => x.v < y.v)
    (hmem : pr ∈ a :: t) (hlast : pr.v < (t.getLastD a).v) :
    interpLoop pr.v (a :: t) = some pr.p := by
  induction t generalizing a with
  | nil =>
      rw [List.getLastD_nil] at hlast
      simp only [List.mem_singleton] at hmem
      subst hmem
      exact absurd hlast (lt_irrefl _)
  | cons b t ih =>
      obtain ⟨hhead, htail⟩ := List.pairwise_cons.mp hs
      rw [List.getLastD_cons] at hlast
      rcases List.mem_cons.mp hmem with h | h
      · subst h
        rw [interpLoop, if_pos rfl]
      · have hav : a.v < pr.v := hhead pr h
        have hge : b.v ≤ pr.v := by
          rcases List.mem_cons.mp h with h' | h'
          · rw [h']
          · exact le_of_lt ((List.pairwise_cons.mp htail).1 pr h')
        rw [interpLoop, if_neg (ne_of_gt hav),
          if_neg fun hbr => absurd hbr.2 (not_lt.mpr hge)]
        exact ih htail h hlast

/-- On a value-sorted list containing adjacent pairs `a`, `b` which
bracket the measurement strictly, the scan interpolates between exactly
those two pairs. -/
lemma interpLoop_bracket {m : ℚ} {a b : Pair} {pre post : List Pair}
    (hs : (pre ++ a :: b :: post).Pairwise fun x y => x.v ≤ y.v)
    (h1 : a.v < m) (h2 : m < b.v) :
    interpLoop m (pre ++ a :: b :: post) = some (interp a b m) := by
  induction pre with
  | nil =>
      rw [List.nil_append, interpLoop, if_neg (ne_of_gt h1), if_pos ⟨h1, h2⟩]
  | cons x pre ih =>
      rw [List.cons_append]
      obtain ⟨hhead, htail⟩ := List.pairwise_cons.mp hs
      simp only [List.append_eq] at hhead htail
      have hxm : x.v < m := lt_of_le_of_lt (hhead a (by simp)) h1
      have ihr := ih htail
      cases hp : pre ++ a :: b :: post with
      | nil => exact absurd hp (by simp)
      | cons y rest =>
          have hy : y.v ≤ a.v := by
            have hmem : a ∈ y :: rest := by
              rw [← hp]
              simp
            rw [hp] at htail
            exact head_le_of_sorted htail hmem
          rw [interpLoop, if_neg (ne_of_gt hxm),
            if_neg fun hbr => absurd hbr.2 (not_lt.mpr (le_of_lt (lt_of_le_of_lt hy h1)))]
          rw [hp] at ihr
          exact ihr

/-! Lemmas about the clamp-then-scan procedure. -/

/-- Totality on a nonempty value-sorted list: the trailing `return NaN`
is unreachable. -/
lemma clampInterp_isSome {m : ℚ} {a : Pair} {t : List Pair}
    (hs : (a :: t).Pairwise fun x y => x.v ≤ y.v) :
    (clampInterp m (a :: t)).isSome := by
  rw [clampInterp]
  by_cases h1 : m ≤ a.v
  · rw [if_pos h1]
    rfl
  · rw [if_neg h1]
    by_cases h2 : (t.getLastD a).v ≤ m
    · rw [if_pos h2]
      rfl
    · rw [if_neg h2]
      exact interpLoop_isSome hs (le_of_lt (not_le.mp h1)) (not_le.mp h2)

/-- Any clamped or interpolated result lies between the percentiles of
two members of the pair list. -/
lemma clampInterp_bounds {m r : ℚ} {l : List Pair}
    (hr : clampInterp m l = some r) :
    ∃ a ∈ l, ∃ b ∈ l, a.p ≤ r ∧ r ≤ b.p := by
  cases l with
  | nil => simp [clampInterp] at hr
  | cons a t =>
      rw [clampInterp] at hr
      by_cases h1 : m ≤ a.v
      · rw [if_pos h1] at hr
        cases hr
        exact ⟨a, by simp, a, by simp, le_refl _, le_refl _⟩
      · rw [if_neg h1] at hr
        by_cases h2 : (t.getLastD a).v ≤ m
        · rw [if_pos h2] at hr
          cases hr
          exact ⟨_, List.getLastD_mem_cons t a, _, List.getLastD_mem_cons t a,
            le_refl _, le_refl _⟩
        · rw [if_neg h2] at hr
          exact interpLoop_bounds hr

/-- Monotonicity of the clamp-then-scan procedure on a percentile-sorted
pair list. -/
lemma clampInterp_mono {m m' r r' : ℚ} {l : List Pair}
    (hs : l.Pairwise fun x y => x.p ≤ y.p) (hmm : m ≤ m')
    (hr : clampInterp m l = some r) (hr' : clampInterp m' l = some r') :
    r ≤ r' := by
  cases l with
  | nil => simp [clampInterp] at hr
  | cons a t =>
      rw [clampInterp] at hr hr'
      by_cases h1 : m ≤ a.v
      · rw [if_pos h1] at hr
        cases hr
        by_cases h1' : m' ≤ a.v
        · rw [if_pos h1'] at hr'
          cases hr'
          exact le_refl _
        · rw [if_neg h1'] at hr'
          by_cases h2' : (t.getLastD a).v ≤ m'
          · rw [if_pos h2'] at hr'
            cases hr'
            exact head_p_le_getLastD hs
          · rw [if_neg h2'] at hr'
            exact interpLoop_head_le hs hr'
      · have h1'f : ¬m' ≤ a.v := fun h => h1 (le_trans hmm h)
        rw [if_neg h1] at hr
        rw [if_neg h1'f] at hr'
        by_cases h2 : (t.getLastD a).v ≤ m
        · rw [if_pos h2] at hr
          cases hr
          rw [if_pos (le_trans h2 hmm)] at hr'
          cases hr'
          exact le_refl _
        · rw [if_neg h2] at hr
          by_cases h2' : (t.getLastD a).v ≤ m'
          · rw [if_pos h2'] at hr'
            cases hr'
            exact interpLoop_le_getLastD hs hr
          · rw [if_neg h2'] at hr'
            exact interpLoop_mono hs hmm (le_of_lt (not_le.mp h1)) hr hr'

/-- On a strictly value-sorted list, a tabulated value maps exactly to
its tabulated percentile. -/
lemma clampInterp_exact {pr : Pair} {l : List Pair}
    (hs : l.Pairwise fun x y => x.v < y.v) (hmem : pr ∈ l) :
    clampInterp pr.v l = some pr.p := by
  cases l with
  | nil => simp at hmem
  | cons a t =>
      rw [clampInterp]
      by_cases h1 : pr.v ≤ a.v
      · rw [if_pos h1]
        rcases pairwise_head_rel hs hmem with h | h
        · rw [h]
        · exact absurd h1 (not_le.mpr h)
      · rw [if_neg h1]
        by_cases h2 : (t.getLastD a).v ≤ pr.v
        · rw [if_pos h2]
          rcases pairwise_rel_getLastD hs hmem with h | h
          · rw [h]
          · exact absurd h2 (not_le.mpr h)
        · rw [if_neg h2]
          exact interpLoop_exact hs hmem (not_le.mp h2)

/-- Low clamp: a measurement at or below every listed value returns the
percentile of a value-minimal pair. -/
lemma clampInterp_min_spec {m : ℚ} {a : Pair} {t : List Pair}
    (hs : (a :: t).Pairwise fun x y => x.v ≤ y.v)
    (hle : ∀ q ∈ a :: t, m ≤ q.v) :
    ∃ x ∈ a :: t, (∀ q ∈ a :: t, x.v ≤ q.v) ∧ clampInterp m (a :: t) = some x.p := by
  refine ⟨a, by simp, fun q hq => head_le_of_sorted hs hq, ?_⟩
  rw [clampInterp, if_pos (hle a (by simp))]

/-- High clamp: a measurement at or above every listed value returns the
percentile of a value-maximal pair. -/
lemma clampInterp_max_spec {m : ℚ} {a : Pair} {t : List Pair}
    (hs : (a :: t).Pairwise fun x y => x.v ≤ y.v)
    (hge : ∀ q ∈ a :: t, q.v ≤ m) :
    ∃ x ∈ a :: t, (∀ q ∈ a :: t, q.v ≤ x.v) ∧ clampInterp m (a :: t) = some x.p := by
  by_cases h1 : m ≤ a.v
  · exact ⟨a, by simp, fun q hq => le_trans (hge q hq) h1, by rw [clampInterp, if_pos h1]⟩
  · refine ⟨t.getLastD a, List.getLastD_mem_cons t a,
      fun q hq => le_getLastD_of_sorted hs hq, ?_⟩
    rw [clampInterp, if_neg h1, if_pos (hge _ (List.getLastD_mem_cons t a))]

/-- Strict bracketing by adjacent pairs of a value-sorted list produces
exactly the linear interpolation between those pairs. -/
lemma clampInterp_bracket {m : ℚ} {a b : Pair} {pre post : List Pair}
    (hs : (pre ++ a :: b :: post).Pairwise fun x y => x.v ≤ y.v)
    (h1 : a.v < m) (h2 : m < b.v) :
    clampInterp m (pre ++ a :: b :: post) = some (interp a b m) := by
  have hloop := interpLoop_bracket hs h1 h2
  cases hp : pre ++ a :: b :: post with
  | nil => exact absurd hp (by simp)
  | cons y rest =>
      rw [hp] at hs hloop
      have hya : y.v ≤ a.v := head_le_of_sorted hs (by rw [← hp]; simp)
      have hbl : b.v ≤ (rest.getLastD y).v := le_getLastD_of_sorted hs (by rw [← hp]; simp)
      rw [clampInterp, if_neg (not_le.mpr (lt_of_le_of_lt hya h1)),
        if_neg (not_le.mpr (lt_of_lt_of_le h2 hbl))]
      exact hloop

/-! Lemmas connecting the engine functions to the clamp-and-scan core. -/

lemma efwSortedPairs_sorted (c : EfwCurves) (ga : ℚ) :
    (efwSortedPairs c ga).Pairwise fun x y => x.v ≤ y.v :=
  List.sorted_insertionSort _ _

lemma efwSortedPairs_perm (c : EfwCurves) (ga : ℚ) :
    (efwSortedPairs c ga).Perm (efwRowPairs c ga) :=
  List.perm_insertionSort _ _

lemma acSortedPairs_sorted (row : List (ℚ × ℚ)) :
    (acSortedPairs row).Pairwise fun x y => x.p ≤ y.p := by
  unfold acSortedPairs
  rw [List.pairwise_map]
  have h := List.sorted_insertionSort (fun a b : ℚ => a ≤ b) (row.map Prod.fst)
  exact List.Pairwise.imp (fun hab => hab) h

lemma acRowPairs_sorted (t : AcTable) (ga : ℚ) :
    (acRowPairs t ga).Pairwise fun x y => x.p ≤ y.p := by
  unfold acRowPairs
  cases findNearestGA t ga with
  | none => simp
  | some k => exact acSortedPairs_sorted _

lemma calculateEFWPercentile_some {c : EfwCurves} {ga : ℚ} {m : ℚ} (hm : 0 < m)
    (hne : efwRowPairs c ga ≠ []) :
    calculateEFWPercentile c ga (some m) = clampInterp m (efwSortedPairs c ga) := by
  have hidx : ¬findNearestEfwWeekIndex c.weeks ga = none := by
    intro h
    apply hne
    unfold efwRowPairs
    rw [h]
  simp only [calculateEFWPercentile]
  rw [if_neg (not_le.mpr hm), if_neg hidx, if_neg hne]

lemma calculateEFWPercentile_eq_some {c : EfwCurves} {ga m r : ℚ}
    (h : calculateEFWPercentile c ga (some m) = some r) :
    clampInterp m (efwSortedPairs c ga) = some r := by
  simp only [calculateEFWPercentile] at h
  by_cases hm : m ≤ 0
  · rw [if_pos hm] at h
    exact absurd h (by simp)
  · rw [if_neg hm] at h
    by_cases hidx : findNearestEfwWeekIndex c.weeks ga = none
    · rw [if_pos hidx] at h
      exact absurd h (by simp)
    · rw [if_neg hidx] at h
      by_cases hne : efwRowPairs c ga = []
      · rw [if_pos hne] at h
        exact absurd h (by simp)
      · rw [if_neg hne] at h
        exact h

lemma calculateACPercentile_some {t : AcTable} {ga : ℚ} {m : ℚ} (hm : m ≠ 0)
    (hk : ¬findNearestGA t ga = none) :
    calculateACPercentile t ga (some m) = clampInterp m (acRowPairs t ga) := by
  simp only [calculateACPercentile]
  rw [if_neg hm, if_neg hk]

lemma calculateACPercentile_eq_some {t : AcTable} {ga m r : ℚ}
    (h : calculateACPercentile t ga (some m) = some r) :
    clampInterp m (acRowPairs t ga) = some r := by
  simp only [calculateACPercentile] at h
  by_cases hm : m = 0
  · rw [if_pos hm] at h
    exact absurd h (by simp)
  · rw [if_neg hm] at h
    by_cases hk : findNearestGA t ga = none
    · rw [if_pos hk] at h
      exact absurd h (by simp)
    · rw [if_neg hk] at h
      exact h

lemma acRowPairs_ne_nil_key {t : AcTable} {ga : ℚ}
    (hne : acRowPairs t ga ≠ []) : ¬findNearestGA t ga = none := by
  intro h
  apply hne
  unfold acRowPairs
  rw [h]

/-! Specification of the nearest-row scan loops. -/

lemma nearestAux_spec (ga : ℚ) (rest : List ℚ) :
    ∀ (i bi : Nat) (bd : ℚ),
      (nearestAux ga rest i bd bi = bi ∧
        ∀ k, k < rest.length → bd ≤ |rest.getD k 0 - ga|) ∨
      (∃ k, k < rest.length ∧ nearestAux ga rest i bd bi = i + k ∧
        |rest.getD k 0 - ga| < bd ∧
        (∀ k', k' < rest.length → |rest.getD k 0 - ga| ≤ |rest.getD k' 0 - ga|) ∧
        (∀ k', k' < k → |rest.getD k 0 - ga| < |rest.getD k' 0 - ga|)) := by
  induction rest with
  | nil =>
      intro i bi bd
      exact Or.inl ⟨rfl, fun k hk => absurd hk (by simp)⟩
  | cons w ws ih =>
      intro i bi bd
      simp only [nearestAux]
      by_cases hw : |w - ga| < bd
      · rw [if_pos hw]
        rcases ih (i + 1) i (|w - ga|) with ⟨heq, hmin⟩ | ⟨k, hk, heq, hlt, hmin, hfirst⟩
        · refine Or.inr ⟨0, by simp, ?_, ?_, ?_, ?_⟩
          · rw [heq]
            omega
          · simpa using hw
          · intro k' hk'
            cases k' with
            | zero => exact le_refl _
            | succ k'' =>
                simp only [List.getD_cons_zero, List.getD_cons_succ]
                exact hmin k'' (by simpa using hk')
          · intro k' hk'
            exact absurd hk' (Nat.not_lt_zero k')
        · refine Or.inr ⟨k + 1, by simpa using hk, ?_, ?_, ?_, ?_⟩
          · rw [heq]
            omega
          · simpa using lt_trans hlt hw
          · intro k' hk'
            cases k' with
            | zero =>
                simp only [List.getD_cons_zero, List.getD_cons_succ]
                exact le_of_lt hlt
            | succ k'' =>
                simp only [List.getD_cons_succ]
                exact hmin k'' (by simpa using hk')
          · intro k' hk'
            cases k' with
            | zero =>
                simp only [List.getD_cons_zero, List.getD_cons_succ]
                exact hlt
            | succ k'' =>
                simp only [List.getD_cons_succ]
                exact hfirst k'' (by omega)
      · rw [if_neg hw]
        have hbd : bd ≤ |w - ga| := not_lt.mp hw
        rcases ih (i + 1) bi bd with ⟨heq, hmin⟩ | ⟨k, hk, heq, hlt, hmin, hfirst⟩
        · refine Or.inl ⟨heq, ?_⟩
          intro k' hk'
          cases k' with
          | zero => simpa using hbd
          | succ k'' =>
              simp only [List.getD_cons_succ]
              exact hmin k'' (by simpa using hk')
        · refine Or.inr ⟨k + 1, by simpa using hk, ?_, ?_, ?_, ?_⟩
          · rw [heq]
            omega
          · simpa using hlt
          · intro k' hk'
            cases k' with
            | zero =>
                simp only [List.getD_cons_zero, List.getD_cons_succ]
                exact le_of_lt (lt_of_lt_of_le hlt hbd)
            | succ k'' =>
                simp only [List.getD_cons_succ]
                exact hmin k'' (by simpa using hk')
          · intro k' hk'
            cases k' with
            | zero =>
                simp only [List.getD_cons_zero, List.getD_cons_succ]
                exact lt_of_lt_of_le hlt hbd
            | succ k'' =>
                simp only [List.getD_cons_succ]
                exact hfirst k'' (by omega)

/-- The index returned by the weight-table nearest scan is in range,
attains the minimal distance to the input age, and is the first index to
do so. -/
lemma findNearestEfwWeekIndex_spec (weeks : List ℚ) (ga : ℚ) (hne : weeks ≠ []) :
    ∃ j, findNearestEfwWeekIndex weeks ga = some j ∧ j < weeks.length ∧
      (∀ k, k < weeks.length → |weeks.getD j 0 - ga| ≤ |weeks.getD k 0 - ga|) ∧
      (∀ k, k < j → |weeks.getD j 0 - ga| < |weeks.getD k 0 - ga|) := by
  cases weeks with
  | nil => exact absurd rfl hne
  | cons w ws =>
      rcases nearestAux_spec ga ws 1 0 (|w - ga|)
        with ⟨heq, hmin⟩ | ⟨k, hk, heq, hlt, hmin, hfirst⟩
      · refine ⟨0, ?_, by simp, ?_, ?_⟩
        · rw [findNearestEfwWeekIndex, heq]
        · intro k hk
          cases k with
          | zero => exact le_refl _
          | succ k' =>
              simp only [List.getD_cons_zero, List.getD_cons_succ]
              exact hmin k' (by simpa using hk)
        · intro k hk
          exact absurd hk (Nat.not_lt_zero k)
      · refine ⟨k + 1, ?_, by simpa using hk, ?_, ?_⟩
        · rw [findNearestEfwWeekIndex, heq]
          congr 1
          omega
        · intro k' hk'
          cases k' with
          | zero =>
              simp only [List.getD_cons_zero, List.getD_cons_succ]
              exact le_of_lt hlt
          | succ k'' =>
              simp only [List.getD_cons_succ]
              exact hmin k'' (by simpa using hk')
        · intro k' hk'
          cases k' with
          | zero =>
              simp only [List.getD_cons_zero, List.getD_cons_succ]
              exact hlt
          | succ k'' =>
              simp only [List.getD_cons_succ]
              exact hfirst k'' (by omega)

lemma nearestKeyAux_spec (ga : ℚ) (rest : List ℚ) :
    ∀ (best bd : ℚ),
      (nearestKeyAux ga rest best bd = best ∧
        ∀ k, k < rest.length → bd ≤ |rest.getD k 0 - ga|) ∨
      (∃ k, k < rest.length ∧ nearestKeyAux ga rest best bd = rest.getD k 0 ∧
        |rest.getD k 0 - ga| < bd ∧
        (∀ k', k' < rest.length → |rest.getD k 0 - ga| ≤ |rest.getD k' 0 - ga|) ∧
        (∀ k', k' < k → |rest.getD k 0 - ga| < |rest.getD k' 0 - ga|)) := by
  induction rest with
  | nil =>
      intro best bd
      exact Or.inl ⟨rfl, fun k hk => absurd hk (by simp)⟩
  | cons w ws ih =>
      intro best bd
      simp only [nearestKeyAux]
      by_cases hw : |w - ga| < bd
      · rw [if_pos hw]
        rcases ih w (|w - ga|) with ⟨heq, hmin⟩ | ⟨k, hk, heq, hlt, hmin, hfirst⟩
        · refine Or.inr ⟨0, by simp, ?_, ?_, ?_, ?_⟩
          · simpa using heq
          · simpa using hw
          · intro k' hk'
            cases k' with
            | zero => exact le_refl _
            | succ k'' =>
                simp only [List.getD_cons_zero, List.getD_cons_succ]
                exact hmin k'' (by simpa using hk')
          · intro k' hk'
            exact absurd hk' (Nat.not_lt_zero k')
        · refine Or.inr ⟨k + 1, by simpa using hk, ?_, ?_, ?_, ?_⟩
          · simpa using heq
          · simpa using lt_trans hlt hw
          · intro k' hk'
            cases k' with
            | zero =>
                simp only [List.getD_cons_zero, List.getD_cons_succ]
                exact le_of_lt hlt
            | succ k'' =>
                simp only [List.getD_cons_succ]
                exact hmin k'' (by simpa using hk')
          · intro k' hk'
            cases k' with
            | zero =>
                simp only [List.getD_cons_zero, List.getD_cons_succ]
                exact hlt
            | succ k'' =>
                simp only [List.getD_cons_succ]
                exact hfirst k'' (by omega)
      · rw [if_neg hw]
        have hbd : bd ≤ |w - ga| := not_lt.mp hw
        rcases ih best bd with ⟨heq, hmin⟩ | ⟨k, hk, heq, hlt, hmin, hfirst⟩
        · refine Or.inl ⟨heq, ?_⟩
          intro k' hk'
          cases k' with
          | zero => simpa using hbd
          | succ k'' =>
              simp only [List.getD_cons_succ]
              exact hmin k'' (by simpa using hk')
        · refine Or.inr ⟨k + 1, by simpa using hk, ?_, ?_, ?_, ?_⟩
          · simpa using heq
          · simpa using hlt
          · intro k' hk'
            cases k' with
            | zero =>
                simp only [List.getD_cons_zero, List.getD_cons_succ]
                exact le_of_lt (lt_of_lt_of_le hlt hbd)
            | succ k'' =>
                simp only [List.getD_cons_succ]
                exact hmin k'' (by simpa using hk')
          · intro k' hk'
            cases k' with
            | zero =>
                simp only [List.getD_cons_zero, List.getD_cons_succ]
                exact lt_of_lt_of_le hlt hbd
            | succ k'' =>
                simp only [List.getD_cons_succ]
                exact hfirst k'' (by omega)

/-- The key returned by the AC-table nearest scan is a table key at
minimal distance from the input age, and the first such key in
enumeration order. -/
lemma findNearestGA_spec (t : AcTable) (ga : ℚ) (hne : t.rows ≠ []) :
    ∃ j, j < (t.rows.map Prod.fst).length ∧
      findNearestGA t ga = some ((t.rows.map Prod.fst).getD j 0) ∧
      (∀ k, k < (t.rows.map Prod.fst).length →
        |(t.rows.map Prod.fst).getD j 0 - ga| ≤ |(t.rows.map Prod.fst).getD k 0 - ga|) ∧
      (∀ k, k < j →
        |(t.rows.map Prod.fst).getD j 0 - ga| < |(t.rows.map Prod.fst).getD k 0 - ga|) := by
  cases hm : t.rows.map Prod.fst with
  | nil => exact absurd (List.map_eq_nil_iff.mp hm) hne
  | cons w ws =>
      have hdef : findNearestGA t ga = some (nearestKeyAux ga ws w (|w - ga|)) := by
        unfold findNearestGA
        rw [hm]
      rcases nearestKeyAux_spec ga ws w (|w - ga|)
        with ⟨heq, hmin⟩ | ⟨k, hk, heq, hlt, hmin, hfirst⟩
      · refine ⟨0, by simp, ?_, ?_, ?_⟩
        · rw [hdef, heq]
          simp
        · intro k hk
          cases k with
          | zero => exact le_refl _
          | succ k' =>
              simp only [List.getD_cons_zero, List.getD_cons_succ]
              exact hmin k' (by simpa using hk)
        · intro k hk
          exact absurd hk (Nat.not_lt_zero k)
      · refine ⟨k + 1, by simpa using hk, ?_, ?_, ?_⟩
        · rw [hdef, heq]
          simp
        · intro k' hk'
          cases k' with
          | zero =>
              simp only [List.getD_cons_zero, List.getD_cons_succ]
              exact le_of_lt hlt
          | succ k'' =>
              simp only [List.getD_cons_succ]
              exact hmin k'' (by simpa using hk')
        · intro k' hk'
          cases k' with
          | zero =>
              simp only [List.getD_cons_zero, List.getD_cons_succ]
              exact hlt
          | succ k'' =>
              simp only [List.getD_cons_succ]
              exact hfirst k'' (by omega)

/-! Lemmas for column-order invariance of the weight path. -/

/-- The filter applied to one (label, cell) combination by the
pair-assembly loop. -/
def pairOfCell : JsNum × JsNum → Option Pair
  | (some p, some v) => some ⟨p, v⟩
  | (some _, none) => none
  | (none, _) => none

lemma buildPairs_eq_filterMap (ps : List JsNum) : ∀ vs : List JsNum,
    buildPairs ps vs = (ps.zip vs).filterMap pairOfCell := by
  induction ps with
  | nil =>
      intro vs
      rfl
  | cons p ps ih =>
      intro vs
      cases vs with
      | nil => cases p <;> rfl
      | cons v vs =>
          cases p with
          | none =>
              show buildPairs ps vs = _
              rw [List.zip_cons_cons, List.filterMap_cons]
              exact ih vs
          | some p' =>
              cases v with
              | none =>
                  show buildPairs ps vs = _
                  rw [List.zip_cons_cons, List.filterMap_cons]
                  exact ih vs
              | some v' =>
                  show Pair.mk p' v' :: buildPairs ps vs = _
                  rw [List.zip_cons_cons, List.filterMap_cons]
                  rw [ih vs]
                  rfl

/-- Permuting the (label, column) combinations of the weight table
permutes the assembled pair list of any fixed row. -/
lemma buildPairs_perm {c1 c2 : EfwCurves} (idx : Nat)
    (hperm : (c1.percentiles.zip c1.data).Perm (c2.percentiles.zip c2.data)) :
    (buildPairs c1.percentiles (efwValuesAt c1 idx)).Perm
      (buildPairs c2.percentiles (efwValuesAt c2 idx)) := by
  rw [buildPairs_eq_filterMap, buildPairs_eq_filterMap]
  unfold efwValuesAt
  rw [List.zip_map_right, List.zip_map_right, List.filterMap_map, List.filterMap_map]
  exact hperm.filterMap _

/-- A value-sorted pair list with pairwise-distinct values is strictly
value-sorted. -/
lemma sorted_strict_of_nodup {l : List Pair}
    (hs : l.Pairwise fun x y => x.v ≤ y.v)
    (hn : (l.map Pair.v).Nodup) : l.Pairwise fun x y => x.v < y.v := by
  have hne : l.Pairwise fun x y => x.v ≠ y.v := List.pairwise_map.mp hn
  exact (hs.and hne).imp fun h => lt_of_le_of_ne h.1 h.2

/-! The claims. -/

/-- C1: for every weight reference table, gestational age, and positive
measurement lying strictly between two adjacent (after sorting the
nearest row's valid pairs by value ascending) reference values
`a.v < m < b.v`, percentileForWeight returns
`a.p + (m - a.v) / (b.v - a.v) * (b.p - a.p)`; the spec's worked example
is the witness. -/
theorem claim_C1 (c : EfwCurves) (ga m : ℚ) (pre post : List Pair) (a b : Pair)
    (hm : 0 < m) (hdec : efwSortedPairs c ga = pre ++ a :: b :: post)
    (h1 : a.v < m) (h2 : m < b.v) :
    calculateEFWPercentile c ga (some m) =
      some (a.p + (m - a.v) / (b.v - a.v) * (b.p - a.p)) := by
  have hne : efwRowPairs c ga ≠ [] := by
    intro h
    have hnil : efwSortedPairs c ga = [] := by
      unfold efwSortedPairs
      rw [h]
      rfl
    rw [hdec] at hnil
    exact absurd hnil (by simp)
  rw [calculateEFWPercentile_some hm hne]
  have hs := efwSortedPairs_sorted c ga
  rw [hdec] at hs ⊢
  rw [clampInterp_bracket hs h1 h2]
  rfl

/-- Witness for C1: the spec's worked example — a row at week 20 with
percentile 50 at 350 g and percentile 90 at 450 g gives
`percentileForWeight(table, 20, 400) = 70`. -/
theorem claim_C1_witness : calculateEFWPercentile efwW 20 (some 400) = some 70 := by
  have h := claim_C1 efwW 20 400 [] [] ⟨50, 350⟩ ⟨90, 450⟩ (by norm_num)
    (by norm_num [efwSortedPairs, efwRowPairs, efwW, efwValuesAt, findNearestEfwWeekIndex,
      nearestAux, buildPairs, List.insertionSort, List.orderedInsert])
    (by norm_num) (by norm_num)
  rw [h]
  norm_num

/-- C4 (amended): percentileForCircumference returns no result for a NaN
measurement, for a zero measurement (both rejected by the falsy guard
`!ac || isNaN(ac)`), and for a table with no keys — but a negative
measurement is NOT rejected (see the counterexample), so the claim's
`m ≤ 0` domain must shrink to `m = 0` or NaN. -/
theorem claim_C4 (t : AcTable) (ga : ℚ) (ac : JsNum) :
    calculateACPercentile t ga none = none ∧
    calculateACPercentile t ga (some 0) = none ∧
    (t.rows = [] → calculateACPercentile t ga ac = none) := by
  refine ⟨rfl, by simp [calculateACPercentile], ?_⟩
  intro h
  cases ac with
  | none => rfl
  | some a =>
      have hk : findNearestGA t ga = none := by
        unfold findNearestGA
        rw [h]
        rfl
      simp only [calculateACPercentile]
      by_cases ha : a = 0
      · rw [if_pos ha]
      · rw [if_neg ha, if_pos hk]

/-- Counterexample to C4 as stated: the strictly negative measurement −5
is truthy and not NaN, so it passes the guard and is clamped to the
lowest-percentile value, returning percentile 10 instead of no result. -/
theorem claim_C4_cex :
    calculateACPercentile acInc 20 (some (-5)) = some 10 ∧
    calculateACPercentile acInc 20 (some (-5)) ≠ none := by
  have h : calculateACPercentile acInc 20 (some (-5)) = some 10 := by
    norm_num [calculateACPercentile, acInc, acRowPairs, acSortedPairs, findNearestGA,
      nearestKeyAux, tableRow, rowLookup, clampInterp, interpLoop, interp,
      List.insertionSort, List.orderedInsert, List.find?] <;> simp
  refine ⟨h, ?_⟩
  rw [h]
  simp

/-- Witness for C4: the empty table yields no result for a positive
measurement. -/
theorem claim_C4_witness : calculateACPercentile ⟨[]⟩ 20 (some 5) = none :=
  (claim_C4 ⟨[]⟩ 20 (some 5)).2.2 rfl

/-- C5: discordancy is defined exactly when both estimated fetal weights
are strictly positive, then equals the unrounded
`|efwA - efwB| / max(efwA, efwB) * 100`; in particular
`discordancy(1000, 1000) = 0`, `discordancy(800, 1000) = 20`, and
`discordancy(0, 1000)` is undefined. -/
theorem claim_C5 :
    (∀ a b : ℚ, ((discordancy a b).isSome ↔ 0 < a ∧ 0 < b) ∧
      (0 < a → 0 < b → discordancy a b = some (|a - b| / max a b * 100))) ∧
    discordancy 1000 1000 = some 0 ∧
    discordancy 800 1000 = some 20 ∧
    discordancy 0 1000 = none := by
  refine ⟨fun a b => ⟨?_, fun ha hb => ?_⟩, ?_, ?_, ?_⟩
  · unfold discordancy
    by_cases h : 0 < a ∧ 0 < b
    · rw [if_pos h]
      simpa using h
    · rw [if_neg h]
      simpa using h
  · unfold discordancy
    rw [if_pos ⟨ha, hb⟩]
  · norm_num [discordancy]
  · norm_num [discordancy]
  · norm_num [discordancy]

/-- Witness for C5: the general formula applied at (3, 4). -/
theorem claim_C5_witness : discordancy 3 4 = some (|(3 : ℚ) - 4| / max 3 4 * 100) :=
  (claim_C5.1 3 4).2 (by norm_num) (by norm_num)

/-- C9: every engine call leaves the two reference tables unchanged, and
its result is a pure function of the table it reads and the numeric
inputs. -/
theorem claim_C9 (s : EngineState) (ga : ℚ) (efw ac : JsNum) (a b : ℚ) :
    (runEfwPercentile s ga efw).2 = s ∧
    (runAcPercentile s ga ac).2 = s ∧
    (runDiscordancy s a b).2 = s ∧
    (runEfwPercentile s ga efw).1 = calculateEFWPercentile s.twinEfwCurves ga efw ∧
    (runAcPercentile s ga ac).1 = calculateACPercentile s.twinAcTable ga ac ∧
    (runDiscordancy s a b).1 = discordancy a b :=
  ⟨rfl, rfl, rfl, rfl, rfl, rfl⟩

/-- C2 (amended): percentileForWeight clamps at the row's value
boundaries for every table — a positive measurement at or below every
valid value returns the percentile of a value-minimal pair, and at or
above every valid value that of a value-maximal pair.
percentileForCircumference clamps against the values stored at the
smallest and the largest percentile key; these are the row's value
boundaries only when the row's values are non-decreasing along the
sorted percentile keys, the hypothesis forced by the counterexample.
Regardless, neither function ever produces a percentile outside the
closed span of the row's percentiles (the last two conjuncts). -/
theorem claim_C2 (c : EfwCurves) (t : AcTable) (ga m : ℚ) (hm : 0 < m) :
    ((∀ q ∈ efwRowPairs c ga, m ≤ q.v) → efwRowPairs c ga ≠ [] →
      ∃ x ∈ efwRowPairs c ga, (∀ q ∈ efwRowPairs c ga, x.v ≤ q.v) ∧
        calculateEFWPercentile c ga (some m) = some x.p) ∧
    ((∀ q ∈ efwRowPairs c ga, q.v ≤ m) → efwRowPairs c ga ≠ [] →
      ∃ x ∈ efwRowPairs c ga, (∀ q ∈ efwRowPairs c ga, q.v ≤ x.v) ∧
        calculateEFWPercentile c ga (some m) = some x.p) ∧
    ((acRowPairs t ga).Pairwise (fun x y => x.v ≤ y.v) → acRowPairs t ga ≠ [] →
      ((∀ q ∈ acRowPairs t ga, m ≤ q.v) →
        ∃ x ∈ acRowPairs t ga, (∀ q ∈ acRowPairs t ga, x.v ≤ q.v) ∧
          calculateACPercentile t ga (some m) = some x.p) ∧
      ((∀ q ∈ acRowPairs t ga, q.v ≤ m) →
        ∃ x ∈ acRowPairs t ga, (∀ q ∈ acRowPairs t ga, q.v ≤ x.v) ∧
          calculateACPercentile t ga (some m) = some x.p)) ∧
    (∀ r, calculateEFWPercentile c ga (some m) = some r →
      ∃ a ∈ efwRowPairs c ga, ∃ b ∈ efwRowPairs c ga, a.p ≤ r ∧ r ≤ b.p) ∧
    (∀ r, calculateACPercentile t ga (some m) = some r →
      ∃ a ∈ acRowPairs t ga, ∃ b ∈ acRowPairs t ga, a.p ≤ r ∧ r ≤ b.p) := by
  have hperm := efwSortedPairs_perm c ga
  have hsv := efwSortedPairs_sorted c ga
  refine ⟨fun hle hne => ?_, fun hge hne => ?_,
    fun hsav hane => ⟨fun hle => ?_, fun hge => ?_⟩, fun r hr => ?_, fun r hr => ?_⟩
  · have hsne : efwSortedPairs c ga ≠ [] := by
      intro h
      rw [h] at hperm
      exact hne hperm.symm.eq_nil
    cases hsp : efwSortedPairs c ga with
    | nil => exact absurd hsp hsne
    | cons a tl =>
        rw [hsp] at hsv hperm
        obtain ⟨x, hx, hmin, heq⟩ := clampInterp_min_spec hsv
          fun q hq => hle q (hperm.subset hq)
        refine ⟨x, hperm.subset hx, fun q hq => hmin q (hperm.mem_iff.mpr hq), ?_⟩
        rw [calculateEFWPercentile_some hm hne, hsp]
        exact heq
  · have hsne : efwSortedPairs c ga ≠ [] := by
      intro h
      rw [h] at hperm
      exact hne hperm.symm.eq_nil
    cases hsp : efwSortedPairs c ga with
    | nil => exact absurd hsp hsne
    | cons a tl =>
        rw [hsp] at hsv hperm
        obtain ⟨x, hx, hmax, heq⟩ := clampInterp_max_spec hsv
          fun q hq => hge q (hperm.subset hq)
        refine ⟨x, hperm.subset hx, fun q hq => hmax q (hperm.mem_iff.mpr hq), ?_⟩
        rw [calculateEFWPercentile_some hm hne, hsp]
        exact heq
  · cases hsp : acRowPairs t ga with
    | nil => exact absurd hsp hane
    | cons a tl =>
        rw [hsp] at hsav hle
        obtain ⟨x, hx, hmin, heq⟩ := clampInterp_min_spec hsav hle
        refine ⟨x, hx, hmin, ?_⟩
        rw [calculateACPercentile_some (ne_of_gt hm) (acRowPairs_ne_nil_key hane), hsp]
        exact heq
  · cases hsp : acRowPairs t ga with
    | nil => exact absurd hsp hane
    | cons a tl =>
        rw [hsp] at hsav hge
        obtain ⟨x, hx, hmax, heq⟩ := clampInterp_max_spec hsav hge
        refine ⟨x, hx, hmax, ?_⟩
        rw [calculateACPercentile_some (ne_of_gt hm) (acRowPairs_ne_nil_key hane), hsp]
        exact heq
  · obtain ⟨x, hx, y, hy, hxr, hry⟩ := clampInterp_bounds (calculateEFWPercentile_eq_some hr)
    exact ⟨x, hperm.subset hx, y, hperm.subset hy, hxr, hry⟩
  · exact clampInterp_bounds (calculateACPercentile_eq_some hr)

/-- Counterexample to C2 as stated: in `acDec` the nearest row stores
value 200 at percentile 10 and value 100 at percentile 50, so the row's
largest reference value is 200 with percentile 10; the measurement 250
lies at or above every reference value, yet the code compares it with
`values[values.length - 1] = 100` (the value at the largest percentile
key) and returns percentile 50, not 10. -/
theorem claim_C2_cex :
    calculateACPercentile acDec 20 (some 250) = some 50 ∧
    calculateACPercentile acDec 20 (some 250) ≠ some 10 := by
  have h : calculateACPercentile acDec 20 (some 250) = some 50 := by
    norm_num [calculateACPercentile, acDec, acRowPairs, acSortedPairs, findNearestGA,
      nearestKeyAux, tableRow, rowLookup, clampInterp, interpLoop, interp,
      List.insertionSort, List.orderedInsert, List.find?] <;> simp
  refine ⟨h, ?_⟩
  rw [h]
  simp

/-- Witness for C2: on the spec's example table the measurement 300,
below the minimum 350, clamps to percentile 50. -/
theorem claim_C2_witness : calculateEFWPercentile efwW 20 (some 300) = some 50 := by
  have hrow : efwRowPairs efwW 20 = [⟨50, 350⟩, ⟨90, 450⟩] := by
    norm_num [efwRowPairs, efwW, efwValuesAt, findNearestEfwWeekIndex, nearestAux, buildPairs]
  obtain ⟨x, hx, hmin, heq⟩ := (claim_C2 efwW acDec 20 300 (by norm_num)).1
    (by rw [hrow]
        intro q hq
        fin_cases hq <;> norm_num)
    (by rw [hrow]
        simp)
  rw [hrow] at hx hmin
  rcases List.mem_cons.mp hx with h | h
  · rw [h] at heq
    exact heq
  · exfalso
    have h350 := hmin ⟨50, 350⟩ (List.mem_cons_self _ _)
    rcases List.mem_cons.mp h with h' | h'
    · rw [h'] at h350
      norm_num at h350
    · simp at h'

/-- C6 (amended): exact matches are exact for percentileForWeight on any
nearest row with pairwise-distinct valid values, including at the row's
minimum and maximum; for percentileForCircumference the same additionally
requires the row's values to increase strictly along the sorted
percentile keys — without that monotonicity the claim fails (see the
counterexample). -/
theorem claim_C6 (c : EfwCurves) (t : AcTable) (ga : ℚ) (pr : Pair) (hpos : 0 < pr.v) :
    ((efwRowPairs c ga).Pairwise (fun x y => x.v ≠ y.v) → pr ∈ efwRowPairs c ga →
      calculateEFWPercentile c ga (some pr.v) = some pr.p) ∧
    ((acRowPairs t ga).Pairwise (fun x y => x.v < y.v) → pr ∈ acRowPairs t ga →
      calculateACPercentile t ga (some pr.v) = some pr.p) := by
  constructor
  · intro hdist hmem
    have hne : efwRowPairs c ga ≠ [] := by
      intro h
      rw [h] at hmem
      exact absurd hmem (by simp)
    rw [calculateEFWPercentile_some hpos hne]
    have hperm := efwSortedPairs_perm c ga
    have hs := efwSortedPairs_sorted c ga
    have hdist' : (efwSortedPairs c ga).Pairwise fun x y => x.v ≠ y.v :=
      (hperm.pairwise_iff fun h => h.symm).mpr hdist
    have hstrict : (efwSortedPairs c ga).Pairwise fun x y => x.v < y.v :=
      (hs.and hdist').imp fun h => lt_of_le_of_ne h.1 h.2
    exact clampInterp_exact hstrict (hperm.mem_iff.mpr hmem)
  · intro hstrict hmem
    have hane : acRowPairs t ga ≠ [] := by
      intro h
      rw [h] at hmem
      exact absurd hmem (by simp)
    rw [calculateACPercentile_some (ne_of_gt hpos) (acRowPairs_ne_nil_key hane)]
    exact clampInterp_exact hstrict hmem

/-- Counterexample to C6 as stated: in `acDec` the values 200 and 100
are pairwise distinct and the measurement 100 equals the tabulated value
at percentile 50 exactly, yet the low clamp compares it against
`values[0] = 200` (the value at the smallest percentile key) first and
returns percentile 10, not the matched value's percentile 50. -/
theorem claim_C6_cex :
    calculateACPercentile acDec 20 (some 100) = some 10 ∧
    calculateACPercentile acDec 20 (some 100) ≠ some 50 := by
  have h : calculateACPercentile acDec 20 (some 100) = some 10 := by
    norm_num [calculateACPercentile, acDec, acRowPairs, acSortedPairs, findNearestGA,
      nearestKeyAux, tableRow, rowLookup, clampInterp, interpLoop, interp,
      List.insertionSort, List.orderedInsert, List.find?] <;> simp
  refine ⟨h, ?_⟩
  rw [h]
  simp

/-- Witness for C6: the maximum reference value 450 of the spec's
example table maps exactly to its tabulated percentile 90. -/
theorem claim_C6_witness : calculateEFWPercentile efwW 20 (some 450) = some 90 := by
  have hrow : efwRowPairs efwW 20 = [⟨50, 350⟩, ⟨90, 450⟩] := by
    norm_num [efwRowPairs, efwW, efwValuesAt, findNearestEfwWeekIndex, nearestAux, buildPairs]
  exact (claim_C6 efwW acDec 20 ⟨90, 450⟩ (by norm_num)).1
    (by rw [hrow]
        norm_num [List.pairwise_cons])
    (by rw [hrow]
        exact List.mem_cons_of_mem _ (List.mem_cons_self _ _))

/-- C7: both nearest-GA helpers return, for every non-empty table and
every input age, an entry whose gestational age has minimal absolute
difference from the input; when several entries are equally distant the
first-scanned one wins, deterministically, with no sortedness
requirement on the entries. -/
theorem claim_C7 (weeks : List ℚ) (t : AcTable) (ga : ℚ) :
    (weeks ≠ [] →
      ∃ j, findNearestEfwWeekIndex weeks ga = some j ∧ j < weeks.length ∧
        (∀ k, k < weeks.length → |weeks.getD j 0 - ga| ≤ |weeks.getD k 0 - ga|) ∧
        (∀ k, k < j → |weeks.getD j 0 - ga| < |weeks.getD k 0 - ga|)) ∧
    (t.rows ≠ [] →
      ∃ j, j < (t.rows.map Prod.fst).length ∧
        findNearestGA t ga = some ((t.rows.map Prod.fst).getD j 0) ∧
        (∀ k, k < (t.rows.map Prod.fst).length →
          |(t.rows.map Prod.fst).getD j 0 - ga| ≤ |(t.rows.map Prod.fst).getD k 0 - ga|) ∧
        (∀ k, k < j →
          |(t.rows.map Prod.fst).getD j 0 - ga| < |(t.rows.map Prod.fst).getD k 0 - ga|)) :=
  ⟨findNearestEfwWeekIndex_spec weeks ga, findNearestGA_spec t ga⟩

/-- Witness for C7: between weeks 20 and 23, age 22 selects index 1. -/
theorem claim_C7_witness : findNearestEfwWeekIndex [20, 23] 22 = some 1 := by
  obtain ⟨j, hj, hlen, hmin, hfirst⟩ := (claim_C7 [20, 23] acDec 22).1 (by simp)
  have h2 : j < 2 := by simpa using hlen
  interval_cases j
  · exfalso
    have hcmp := hmin 1 (by norm_num)
    norm_num [List.getD_cons_zero, List.getD_cons_succ] at hcmp
  · exact hj

/-- C8: whenever the nearest row yields at least one valid pair and the
measurement is positive, percentileForWeight returns a result (the
trailing no-match branch is unreachable), and the result lies inside the
closed interval spanned by the row's valid percentiles. -/
theorem claim_C8 (c : EfwCurves) (ga m : ℚ) (hm : 0 < m)
    (hne : efwRowPairs c ga ≠ []) :
    ∃ r, calculateEFWPercentile c ga (some m) = some r ∧
      ∃ a ∈ efwRowPairs c ga, ∃ b ∈ efwRowPairs c ga, a.p ≤ r ∧ r ≤ b.p := by
  have hperm := efwSortedPairs_perm c ga
  have hsv := efwSortedPairs_sorted c ga
  have hsne : efwSortedPairs c ga ≠ [] := by
    intro h
    rw [h] at hperm
    exact hne hperm.symm.eq_nil
  rw [calculateEFWPercentile_some hm hne]
  cases hsp : efwSortedPairs c ga with
  | nil => exact absurd hsp hsne
  | cons a tl =>
      rw [hsp] at hsv hperm
      have hsome : (clampInterp m (a :: tl)).isSome := clampInterp_isSome hsv
      obtain ⟨r, hr⟩ := Option.isSome_iff_exists.mp hsome
      refine ⟨r, hr, ?_⟩
      obtain ⟨x, hx, y, hy, h1, h2⟩ := clampInterp_bounds hr
      exact ⟨x, hperm.subset hx, y, hperm.subset hy, h1, h2⟩

/-- Witness for C8: measurement 500 on the example table produces a
result (it clamps to the highest curve). -/
theorem claim_C8_witness : (calculateEFWPercentile efwW 20 (some 500)).isSome := by
  obtain ⟨r, hr, -⟩ := claim_C8 efwW 20 500 (by norm_num)
    (by norm_num [efwRowPairs, efwW, efwValuesAt, findNearestEfwWeekIndex, nearestAux,
      buildPairs] <;> simp)
  rw [hr]
  rfl

/-- C3 (amended): for a fixed gestational age the returned percentile is
non-decreasing in the measurement for percentileForCircumference on
every table (the scan works through pairs sorted by percentile), and for
percentileForWeight provided the percentiles of the nearest row's
value-sorted pairs are non-decreasing — without that proviso the weight
percentile can decrease (see the counterexample). -/
theorem claim_C3 (c : EfwCurves) (t : AcTable) (ga m1 m2 r1 r2 : ℚ) (hmm : m1 ≤ m2) :
    (calculateACPercentile t ga (some m1) = some r1 →
      calculateACPercentile t ga (some m2) = some r2 → r1 ≤ r2) ∧
    ((efwSortedPairs c ga).Pairwise (fun x y => x.p ≤ y.p) →
      calculateEFWPercentile c ga (some m1) = some r1 →
      calculateEFWPercentile c ga (some m2) = some r2 → r1 ≤ r2) := by
  constructor
  · intro h1 h2
    exact clampInterp_mono (acRowPairs_sorted t ga) hmm
      (calculateACPercentile_eq_some h1) (calculateACPercentile_eq_some h2)
  · intro hsp h1 h2
    exact clampInterp_mono hsp hmm
      (calculateEFWPercentile_eq_some h1) (calculateEFWPercentile_eq_some h2)

/-- Counterexample to C3 as stated: in `efwDec` percentile 90 sits at
100 g and percentile 50 at 200 g; measurement 100 maps to 90 while the
larger measurement 150 maps to 70 — the weight percentile decreases. -/
theorem claim_C3_cex :
    calculateEFWPercentile efwDec 20 (some 100) = some 90 ∧
    calculateEFWPercentile efwDec 20 (some 150) = some 70 ∧
    (100 : ℚ) ≤ 150 ∧ ¬((90 : ℚ) ≤ 70) := by
  refine ⟨?_, ?_, by norm_num, by norm_num⟩
  · norm_num [calculateEFWPercentile, efwDec, efwRowPairs, efwSortedPairs, efwValuesAt,
      findNearestEfwWeekIndex, nearestAux, buildPairs, clampInterp, interpLoop, interp,
      List.insertionSort, List.orderedInsert] <;> simp
  · norm_num [calculateEFWPercentile, efwDec, efwRowPairs, efwSortedPairs, efwValuesAt,
      findNearestEfwWeekIndex, nearestAux, buildPairs, clampInterp, interpLoop, interp,
      List.insertionSort, List.orderedInsert] <;> simp

/-- Witness for C3: on the value-monotone AC table `acInc`, measurements
120 and 150 map to 18 and 30, and the theorem yields 18 ≤ 30. -/
theorem claim_C3_witness :
    calculateACPercentile acInc 20 (some 120) = some 18 ∧
    calculateACPercentile acInc 20 (some 150) = some 30 ∧ (18 : ℚ) ≤ 30 := by
  have h1 : calculateACPercentile acInc 20 (some 120) = some 18 := by
    norm_num [calculateACPercentile, acInc, acRowPairs, acSortedPairs, findNearestGA,
      nearestKeyAux, tableRow, rowLookup, clampInterp, interpLoop, interp,
      List.insertionSort, List.orderedInsert, List.find?] <;> simp
  have h2 : calculateACPercentile acInc 20 (some 150) = some 30 := by
    norm_num [calculateACPercentile, acInc, acRowPairs, acSortedPairs, findNearestGA,
      nearestKeyAux, tableRow, rowLookup, clampInterp, interpLoop, interp,
      List.insertionSort, List.orderedInsert, List.find?] <;> simp
  exact ⟨h1, h2, (claim_C3 efwW acInc 20 120 150 18 30 (by norm_num)).1 h1 h2⟩

/-- C10: two weight tables with the same weeks whose (label, column)
combinations are permutations of each other, and whose valid pairs at
the nearest row carry pairwise-distinct values, give identical results
for every measurement: the pairs are re-sorted by value before clamping
and interpolation, and a sorted list with distinct values is unique in
its permutation class. -/
theorem claim_C10 (c1 c2 : EfwCurves) (ga : ℚ) (efw : JsNum)
    (hweeks : c1.weeks = c2.weeks)
    (hcols : (c1.percentiles.zip c1.data).Perm (c2.percentiles.zip c2.data))
    (hnd : ((efwRowPairs c1 ga).map Pair.v).Nodup) :
    calculateEFWPercentile c1 ga efw = calculateEFWPercentile c2 ga efw := by
  have hidx : findNearestEfwWeekIndex c1.weeks ga = findNearestEfwWeekIndex c2.weeks ga := by
    rw [hweeks]
  have hrowperm : (efwRowPairs c1 ga).Perm (efwRowPairs c2 ga) := by
    unfold efwRowPairs
    rw [← hidx]
    cases findNearestEfwWeekIndex c1.weeks ga with
    | none => exact List.Perm.refl _
    | some idx => exact buildPairs_perm idx hcols
  have hp : (efwSortedPairs c1 ga).Perm (efwSortedPairs c2 ga) :=
    ((efwSortedPairs_perm c1 ga).trans hrowperm).trans (efwSortedPairs_perm c2 ga).symm
  have hnd1 : ((efwSortedPairs c1 ga).map Pair.v).Nodup :=
    (((efwSortedPairs_perm c1 ga).map Pair.v).nodup_iff).mpr hnd
  have hnd2 : ((efwSortedPairs c2 ga).map Pair.v).Nodup :=
    ((hp.map Pair.v).nodup_iff).mp hnd1
  have hstrict1 := sorted_strict_of_nodup (efwSortedPairs_sorted c1 ga) hnd1
  have hstrict2 := sorted_strict_of_nodup (efwSortedPairs_sorted c2 ga) hnd2
  haveI : IsAntisymm Pair fun x y => x.v < y.v := ⟨fun _ _ h h' => ((lt_asymm h) h').elim⟩
  have hsorted_eq : efwSortedPairs c1 ga = efwSortedPairs c2 ga :=
    List.eq_of_perm_of_sorted hp hstrict1 hstrict2
  cases efw with
  | none => rfl
  | some e =>
      simp only [calculateEFWPercentile]
      by_cases he : e ≤ 0
      · rw [if_pos he, if_pos he]
      · rw [if_neg he, if_neg he, hidx]
        by_cases hrow1 : efwRowPairs c1 ga = []
        · have hrow2 : efwRowPairs c2 ga = [] := by
            rw [hrow1] at hrowperm
            exact hrowperm.symm.eq_nil
          rw [if_pos hrow1, if_pos hrow2]
        · have hrow2 : efwRowPairs c2 ga ≠ [] := by
            intro h
            rw [h] at hrowperm
            exact hrow1 hrowperm.eq_nil
          rw [if_neg hrow1, if_neg hrow2, hsorted_eq]

/-- Witness for C10: the spec's example table and its column-swapped
twin agree at measurement 400. -/
theorem claim_C10_witness :
    calculateEFWPercentile efwW 20 (some 400) =
      calculateEFWPercentile efwWswap 20 (some 400) := by
  apply claim_C10 efwW efwWswap 20 (some 400) rfl
  · show ([(some 50, [some 350]), (some 90, [some 450])] :
      List (JsNum × List JsNum)).Perm [(some 90, [some 450]), (some 50, [some 350])]
    exact List.Perm.swap _ _ _
  · norm_num [efwRowPairs, efwW, efwValuesAt, findNearestEfwWeekIndex, nearestAux,
      buildPairs]

end Twin
